import Mathlib

/-!
Verification development for the `sqlitegit` adapter (`src/main.rs`): two
SQLite virtual tables, `commits` and `stats`, exposing a git repository's
commit history and per-commit diff statistics.

The git object store (libgit2) is an external collaborator (spec section 6).
It is modelled by a finite list of commit records plus named tree snapshots;
the revision walk is modelled by the documented traversal contract (every
reachable ancestor, visited once, with object-load failures surfaced as error
items of the iterator, after which the iterator ends).  All adapter logic
(bind-mode planning, argument-slot assignment, cursor state transitions,
parent-count dispatch, line-event aggregation) is translated directly from
`src/main.rs`.
-/

set_option autoImplicit false

namespace Sqlitegit

/-- Result of a fallible adapter call: success, a recoverable engine error
(`rusqlite::Error`, surfaced to SQLite), or a Rust process-level abort
(`unwrap` on a failed value, or an explicit abort macro).  Error payloads are
symbolic names for the failure site; libgit2's actual message text is not
modelled, except for abort messages that appear literally in the source. -/
inductive Outcome (α : Type) where
  | ok (a : α)
  | error (msg : String)
  | fatal (msg : String)
deriving DecidableEq

def Outcome.isOk {α : Type} : Outcome α → Bool
  | .ok _ => true
  | _ => false

/-- A SQLite value handed to `Filter` (`rusqlite::types::ValueRef`). -/
inductive SqlValue where
  | text (s : String)
  | integer (n : Int)
  | null
deriving DecidableEq

/-- `ValueRef::as_str()` succeeds exactly on text values. -/
def sqlAsStr : SqlValue → Option String
  | .text s => some s
  | _ => none

/-- A tree snapshot: the file paths of one commit with their line contents. -/
abbrev Tree := List (String × List String)

/-- One commit object of the repository: identifier, signature data, parent
identifiers and the identifier of its tree (fields read by `CommitShadow::from`
and `GitStatsCursor::compute_diff`). -/
structure CommitData where
  oid : String
  message : Option String
  author_name : Option String
  author_email : Option String
  author_when : Int
  committer_name : Option String
  committer_email : Option String
  committer_when : Int
  parents : List String
  tree_id : String
deriving DecidableEq

/-- A repository: its commit objects, tree objects, current head, and the set
of object ids whose load fails (missing or corrupt on-disk objects). -/
structure Repo where
  commits : List CommitData
  trees : List (String × Tree)
  head : Option String
  corrupt : List String
deriving DecidableEq

/-- The filesystem visible to `Repository::open`: repositories by path.  The
path "." denotes the current working directory. -/
structure FS where
  repos : List (String × Repo)
deriving DecidableEq

/-- `Repository::open(path)`. -/
def openRepo (fs : FS) (path : String) : Option Repo :=
  (fs.repos.find? (fun e => e.1 == path)).map (fun e => e.2)

/-- Loading a commit object by id (`repo.find_commit(oid)`): fails on ids
absent from the repository and on corrupt objects. -/
def lookupC (repo : Repo) (o : String) : Option CommitData :=
  if repo.corrupt.contains o then none
  else repo.commits.find? (fun c => c.oid == o)

/-- `repo.find_tree(tree_id)`. -/
def findTree (repo : Repo) (tid : String) : Option Tree :=
  (repo.trees.find? (fun e => e.1 == tid)).map (fun e => e.2)

def isHexChar (c : Char) : Bool :=
  c.isDigit || (decide ('a' ≤ c) && decide (c ≤ 'f')) || (decide ('A' ≤ c) && decide (c ≤ 'F'))

/-- `Oid::from_str`: a canonical revision identifier is 40 hexadecimal
characters; anything else is modelled as a parse failure. -/
def validOid (s : String) : Bool :=
  (s.length == 40) && s.toList.all isHexChar

/- ## Binding planner (`GitCommit::best_index`, `GitStats::best_index`) -/

/-- One entry of `sqlite3_index_info`: the constrained column and the engine's
usable flag, as read by `best_index` (`con.column()`, `con.is_usable()`). -/
structure ConstraintInfo where
  column : Nat
  usable : Bool
deriving DecidableEq

/-- `info.constraints().filter(|con| con.is_usable()).map(|con| con.column())`. -/
def usableCols (cs : List ConstraintInfo) : List Nat :=
  (cs.filter (fun c => c.usable)).map (fun c => c.column)

/-- The loop body of `best_index`: starting from all-unset argv indices,
`(0..n).for_each` sets `constraint_usage(counter).set_argv_index(counter + 1)`
and increments `counter`. -/
def assignLoop (usage : List (Option Nat)) : Nat → Nat → List (Option Nat)
  | 0, _ => usage
  | steps + 1, counter => assignLoop (usage.set counter (some (counter + 1))) steps (counter + 1)

/-- Argument-slot assignment of `GitCommit::best_index` (`GitStats::best_index`
runs the identical positional loop): entry j of the result is the argv index
given to the j-th constraint of the engine's constraint list. -/
def argvAssign (cs : List ConstraintInfo) : List (Option Nat) :=
  assignLoop (cs.map (fun _ => none)) (usableCols cs).length 0

/-- `used_cols.sort()`: ascending sort of the usable column list. -/
def sortCols (l : List Nat) : List Nat :=
  l.insertionSort (· ≤ ·)

/-- The `match &used_cols[..]` of `GitCommit::best_index`, selecting the
`idx_num` passed to `Filter`: 0 = NONE_PASSED, 1 = REV_PASSED,
2 = REPO_PASSED, 3 = BOTH_PASSED. -/
def bestIndexNum (cs : List ConstraintInfo) : Nat :=
  match sortCols (usableCols cs) with
  | [a, b] => if a = 11 ∧ b = 12 then 3 else 0
  | [a] => if a = 11 then 2 else if a = 12 then 1 else 0
  | [] => 0
  | _ => 0

/-- The hidden parameter columns of the `commits` relation are `repository`
(11) and `ref` (12); this lists the usable constrained hidden columns. -/
def hiddenUsableCols (cs : List ConstraintInfo) : List Nat :=
  (usableCols cs).filter (fun c => (c == 11) || (c == 12))

/- ## Diff aggregation (`GitStatsCursor::compute_diff`) -/

/-- Classification of one line-level diff event (`DiffLineType`); everything
other than an addition or a deletion falls into the ignored catch-all arm. -/
inductive DiffLineKind where
  | addition
  | deletion
  | context
deriving DecidableEq

/-- One line-level change event produced by the tree diff, carrying the
post-image file path (`diff_delta.new_file().path()`). -/
structure LineEvent where
  path : String
  kind : DiffLineKind
deriving DecidableEq

def treeLookup (t : Tree) (p : String) : Option (List String) :=
  (t.find? (fun e => e.1 == p)).map (fun e => e.2)

/-- Model of one file's contribution to the libgit2 tree diff: no events when
both sides hold the same content, otherwise one addition event per line of the
post-image and one deletion event per line of the pre-image.  (The precise
line matching of libgit2 is finer; the adapter only relies on the diff
contract that identical inputs produce no events.) -/
def diffFileAt (p : String) (oldC newC : Option (List String)) : List LineEvent :=
  if oldC = newC then []
  else ((newC.getD []).map (fun _ => LineEvent.mk p .addition))
    ++ ((oldC.getD []).map (fun _ => LineEvent.mk p .deletion))

/-- Model of `repo.diff_tree_to_tree(Some(old), Some(new), opts)`: line events
for every path of either tree. -/
def diffTreeToTree (oldT newT : Tree) : List LineEvent :=
  ((((oldT.map Prod.fst) ++ (newT.map Prod.fst)).dedup).map
    (fun p => diffFileAt p (treeLookup oldT p) (treeLookup newT p))).flatten

/-- `map.get(&file_name)` of the aggregation callback. -/
def mapGet (m : List (String × Nat × Nat)) (k : String) : Option (Nat × Nat) :=
  (m.find? (fun e => e.1 == k)).map (fun e => e.2)

/-- `map.insert(file_name, v)` of the aggregation callback (association-list
model of the `HashMap`; order of first insertion is preserved). -/
def mapInsert (m : List (String × Nat × Nat)) (k : String) (v : Nat × Nat) :
    List (String × Nat × Nat) :=
  if m.any (fun e => e.1 == k) then m.map (fun e => if e.1 == k then (k, v) else e)
  else m ++ [(k, v)]

/-- The body of `line_cb`: bump the addition or deletion counter of the
event's file, ignore every other event kind. -/
def lineStep (m : List (String × Nat × Nat)) (e : LineEvent) : List (String × Nat × Nat) :=
  match e.kind with
  | .addition =>
    match mapGet m e.path with
    | none => mapInsert m e.path (1, 0)
    | some entry => mapInsert m e.path (entry.1 + 1, entry.2)
  | .deletion =>
    match mapGet m e.path with
    | none => mapInsert m e.path (0, 1)
    | some entry => mapInsert m e.path (entry.1, entry.2 + 1)
  | .context => m

/-- `diff.foreach(..., line_cb)` followed by
`map.iter().map(|(k, v)| (k, v.0, v.1)).collect_vec()`. -/
def aggregate (events : List LineEvent) : List (String × Nat × Nat) :=
  events.foldl lineStep []

/-- `GitStatsCursor::compute_diff`, translated arm by arm: resolve the commit
by hash, choose the comparison trees from the parent count (1 parent: commit
tree vs parent tree; 2 parents: second parent tree vs first parent tree;
0 parents: the commit's tree twice; otherwise a process abort), then aggregate
the line events of `diff_tree_to_tree(parent_tree, tree, opts)`. -/
def computeDiff (repo : Repo) (hash : String) : Outcome (List (String × Nat × Nat)) :=
  if validOid hash = false then .error "RevisionResolutionError"
  else
    match lookupC repo hash with
    | none => .error "CommitLookupError"
    | some commit =>
      match commit.parents with
      | [p] =>
        match findTree repo commit.tree_id with
        | none => .error "TreeLookupError"
        | some tree =>
          match lookupC repo p with
          | none => .error "CommitLookupError"
          | some pc =>
            match findTree repo pc.tree_id with
            | none => .error "TreeLookupError"
            | some parent_tree => .ok (aggregate (diffTreeToTree parent_tree tree))
      | [p1, p2] =>
        match lookupC repo p2 with
        | none => .error "CommitLookupError"
        | some pc2 =>
          match findTree repo pc2.tree_id with
          | none => .error "TreeLookupError"
          | some tree =>
            match lookupC repo p1 with
            | none => .error "CommitLookupError"
            | some pc1 =>
              match findTree repo pc1.tree_id with
              | none => .error "TreeLookupError"
              | some parent_tree => .ok (aggregate (diffTreeToTree parent_tree tree))
      | [] =>
        match findTree repo commit.tree_id with
        | none => .error "TreeLookupError"
        | some tree => .ok (aggregate (diffTreeToTree tree tree))
      | _ => .fatal "Commit has more than 2 parents"

/-- The stats cursor (`GitStatsCursor`): materialized rows, position index,
bound hash, repository handle. -/
structure GitStatsCursor where
  diffs : List (String × Nat × Nat)
  i : Nat
  hash : String
  repo : Repo
deriving DecidableEq

/-- The loop of `GitStatsCursor::filter` over its argument values: each text
argument overwrites the hash in turn (`unwrap` aborts on a non-text value). -/
def statsSetHash (h0 : String) : List SqlValue → Option String
  | [] => some h0
  | v :: rest =>
    match sqlAsStr v with
    | none => none
    | some h => statsSetHash h rest

/-- `GitStatsCursor::filter`: bind the hash from the argument values, compute
the diff rows, reset the position index. -/
def statsFilter (st : GitStatsCursor) (args : List SqlValue) : Outcome GitStatsCursor :=
  match statsSetHash st.hash args with
  | none => .fatal "called unwrap on an Err value"
  | some h =>
    match computeDiff st.repo h with
    | .ok d => .ok { st with hash := h, diffs := d, i := 0 }
    | .error e => .error e
    | .fatal m => .fatal m

/- ## Revision walk (model of the libgit2 `Revwalk` collaborator) -/

/-- The largest parent list length over the repository, used to bound the
walk's work list growth. -/
def maxParents (repo : Repo) : Nat :=
  (repo.commits.map (fun c => c.parents.length)).foldr Nat.max 0

/-- One fuelled traversal: pop an id from the work list; skip it when already
visited; emit an error item and end the iteration when its object fails to
load; otherwise emit the id and enqueue its parents.  Fuel only guards
termination; `revwalk` always supplies enough of it. -/
def revwalkAux (repo : Repo) : Nat → List String → List String → List (Except Unit String)
  | 0, _, _ => []
  | _ + 1, [], _ => []
  | fuel + 1, o :: rest, visited =>
    if o ∈ visited then revwalkAux repo fuel rest visited
    else
      match lookupC repo o with
      | none => [Except.error ()]
      | some c => Except.ok o :: revwalkAux repo fuel (rest ++ c.parents) (o :: visited)

/-- The id stream of `repo.revwalk()` after `push(root)`: the ancestors of
`root`, each id once, load failures as error items. -/
def revwalk (repo : Repo) (root : String) : List (Except Unit String) :=
  revwalkAux repo (repo.commits.length * (maxParents repo + 2) + 1) [root] []

/-- The successfully yielded ids of an id stream. -/
def oks (l : List (Except Unit String)) : List String :=
  l.filterMap (fun e => match e with | .ok o => some o | .error _ => none)

/-- `walk.push(oid)`: marks a commit to start traversal from; fails unless the
id resolves to a loadable commit. -/
def pushOid (repo : Repo) (o : String) : Bool :=
  (lookupC repo o).isSome

/-- `walk.push_head()`: resolve the repository head and push it. -/
def pushHead (repo : Repo) : Option String :=
  match repo.head with
  | none => none
  | some h => if (lookupC repo h).isSome then some h else none

/-- Ancestry: `Reachable repo a b` when `b` is reachable from `a` along parent
edges of loadable commits (`a` itself included). -/
inductive Reachable (repo : Repo) : String → String → Prop where
  | refl (o : String) : Reachable repo o o
  | step {a b p : String} {c : CommitData} (h1 : lookupC repo a = some c)
      (h2 : p ∈ c.parents) (h3 : Reachable repo p b) : Reachable repo a b

/-- Ancestry through ids outside `visited` only. -/
inductive RAvoid (repo : Repo) (visited : List String) : String → String → Prop where
  | refl (o : String) (h : o ∉ visited) : RAvoid repo visited o o
  | step {a b p : String} {c : CommitData} (ha : a ∉ visited)
      (h1 : lookupC repo a = some c) (h2 : p ∈ c.parents)
      (h3 : RAvoid repo visited p b) : RAvoid repo visited a b

/-- A repository is parent-closed when every parent edge leads to a loadable
commit. -/
def ClosedRepo (repo : Repo) : Prop :=
  ∀ c ∈ repo.commits, ∀ p ∈ c.parents, (lookupC repo p).isSome = true

instance (repo : Repo) : Decidable (ClosedRepo repo) := by
  unfold ClosedRepo
  infer_instance

/- ## Commit cursor (`GitCommitCursor`) -/

/-- A decoupled snapshot of one commit (`CommitShadow`). -/
structure CommitShadow where
  hash : String
  message : Option String
  author_name : Option String
  author_email : Option String
  author_when : Int
  committer_name : Option String
  committer_email : Option String
  committer_when : Int
  is_merge : Bool
  parent_1 : Option String
  parent_2 : Option String
deriving DecidableEq

/-- `impl From<Commit> for CommitShadow`. -/
def toShadow (c : CommitData) : CommitShadow :=
  { hash := c.oid
    message := c.message
    author_name := c.author_name
    author_email := c.author_email
    author_when := c.author_when
    committer_name := c.committer_name
    committer_email := c.committer_email
    committer_when := c.committer_when
    is_merge := c.parents.length == 2
    parent_1 := c.parents.get? 0
    parent_2 := c.parents.get? 1 }

/-- The commit cursor state (`GitCommitCursor`): echoed parameters, the
`OnceCell` repository handle, the materialized walk and the position index. -/
structure GitCommitCursor where
  rev_param : Option String
  repo_param : Option String
  repo : Option Repo
  walk : List CommitShadow
  i : Nat
deriving DecidableEq

/-- `GitCommit::open`: the fresh cursor. -/
def cursorOpen : GitCommitCursor :=
  { rev_param := none, repo_param := none, repo := none, walk := [], i := 0 }

/-- `OnceCell::set`: a value already present is kept, the new value is
dropped. -/
def onceSet (cell : Option Repo) (v : Repo) : Option Repo :=
  match cell with
  | none => some v
  | some old => some old

/-- Materialization of bind-mode 0 (`idx_num == 0`):
`.map(|oid| find_commit(oid?)).map(|c| c.unwrap().into())` — any error item or
failed load aborts the process. -/
def shadowsStrict (repo : Repo) : List (Except Unit String) → Outcome (List CommitShadow)
  | [] => .ok []
  | .error _ :: _ => .fatal "called unwrap on an Err value"
  | .ok o :: rest =>
    match lookupC repo o with
    | none => .fatal "called unwrap on an Err value"
    | some c =>
      match shadowsStrict repo rest with
      | .ok l => .ok (toShadow c :: l)
      | .error e => .error e
      | .fatal m => .fatal m

/-- Materialization of bind-mode 1:
`.map_ok(|oid| find_commit(oid).unwrap()).filter_map(|c| c.ok())` — walk error
items are silently dropped, a failed load aborts the process. -/
def shadowsLenient (repo : Repo) : List (Except Unit String) → Outcome (List CommitShadow)
  | [] => .ok []
  | .error _ :: rest => shadowsLenient repo rest
  | .ok o :: rest =>
    match lookupC repo o with
    | none => .fatal "called unwrap on an Err value"
    | some c =>
      match shadowsLenient repo rest with
      | .ok l => .ok (toShadow c :: l)
      | .error e => .error e
      | .fatal m => .fatal m

/-- Materialization of bind-modes 2 and 3:
`.map_ok(|oid| find_commit(oid)).filter_map(|c| c.ok().and_then(|c| c.ok()))`
— walk error items and failed loads are both silently dropped. -/
def shadowsSkip (repo : Repo) : List (Except Unit String) → List CommitShadow
  | [] => []
  | .error _ :: rest => shadowsSkip repo rest
  | .ok o :: rest =>
    match lookupC repo o with
    | none => shadowsSkip repo rest
    | some c => toShadow c :: shadowsSkip repo rest

/-- `GitCommitCursor::init`, arm `0`: clear both parameters, open ".", set the
`OnceCell`, walk from head, reset the index. -/
def initNone (fs : FS) (st : GitCommitCursor) : Outcome GitCommitCursor :=
  match openRepo fs "." with
  | none => .error "RepositoryOpenError"
  | some newRepo =>
    match onceSet st.repo newRepo with
    | none => .fatal "called unwrap on a None value"
    | some repoUsed =>
      match pushHead repoUsed with
      | none => .error "RevwalkPushError"
      | some h =>
        match shadowsStrict repoUsed (revwalk repoUsed h) with
        | .ok w =>
          .ok { st with repo_param := none, rev_param := none,
                        repo := some repoUsed, walk := w, i := 0 }
        | .error e => .error e
        | .fatal m => .fatal m

/-- `GitCommitCursor::init`, arm `1`: bind the revision from the first
argument, open "." with `unwrap`, parse the revision, push it, materialize the
walk leniently.  The position index is not touched. -/
def initRev (fs : FS) (st : GitCommitCursor) (vals : List SqlValue) : Outcome GitCommitCursor :=
  let rev := vals.head? >>= sqlAsStr
  match openRepo fs "." with
  | none => .fatal "called unwrap on an Err value"
  | some newRepo =>
    match onceSet st.repo newRepo with
    | none => .fatal "called unwrap on a None value"
    | some repoUsed =>
      match rev with
      | none => .fatal "called unwrap on a None value"
      | some r =>
        if validOid r = false then .error "RevisionResolutionError"
        else if pushOid repoUsed r = false then .error "RevwalkPushError"
        else
          match shadowsLenient repoUsed (revwalk repoUsed r) with
          | .ok w =>
            .ok { st with repo_param := none, rev_param := some r,
                          repo := some repoUsed, walk := w }
          | .error e => .error e
          | .fatal m => .fatal m

/-- `GitCommitCursor::init`, arm `2`: bind the repository path from the first
argument (`unwrap`), open it, walk from head with the skipping
materialization.  The position index is not touched. -/
def initRepo (fs : FS) (st : GitCommitCursor) (vals : List SqlValue) : Outcome GitCommitCursor :=
  match vals.head? >>= sqlAsStr with
  | none => .fatal "called unwrap on a None value"
  | some path =>
    match openRepo fs path with
    | none => .error "RepositoryOpenError"
    | some newRepo =>
      match onceSet st.repo newRepo with
      | none => .fatal "called unwrap on a None value"
      | some repoUsed =>
        match pushHead repoUsed with
        | none => .error "RevwalkPushError"
        | some h =>
          .ok { st with repo_param := some path, rev_param := none,
                        repo := some repoUsed,
                        walk := shadowsSkip repoUsed (revwalk repoUsed h) }

/-- The tail of arm `3` after the two parameter assignments. -/
def initBothResolved (fs : FS) (st : GitCommitCursor) (path : String) (rev : Option String) :
    Outcome GitCommitCursor :=
  match openRepo fs path with
  | none => .error "RepositoryOpenError"
  | some newRepo =>
    match st.repo with
    | some _ => .error "unable to set repo"
    | none =>
      match rev with
      | none => .fatal "called unwrap on a None value"
      | some r =>
        if validOid r = false then .error "RevisionResolutionError"
        else if pushOid newRepo r = false then .error "RevwalkPushError"
        else
          .ok { st with repo_param := some path, rev_param := some r,
                        repo := some newRepo,
                        walk := shadowsSkip newRepo (revwalk newRepo r) }

/-- `GitCommitCursor::init`, arm `3`: bind path and revision from the two
arguments (`unwrap` on non-text), open the path, fail with a module error when
the `OnceCell` is already set, parse and push the revision, walk with the
skipping materialization.  The position index is not touched. -/
def initBoth (fs : FS) (st : GitCommitCursor) (vals : List SqlValue) : Outcome GitCommitCursor :=
  match vals.head? >>= sqlAsStr with
  | none => .fatal "called unwrap on a None value"
  | some path =>
    match vals[1]? with
    | some v =>
      match sqlAsStr v with
      | none => .fatal "called unwrap on an Err value"
      | some r => initBothResolved fs st path (some r)
    | none => initBothResolved fs st path none

/-- `GitCommitCursor::init`: dispatch on `idx_num`; unknown bind-modes change
nothing and succeed. -/
def commitInit (fs : FS) (st : GitCommitCursor) (idxNum : Nat) (vals : List SqlValue) :
    Outcome GitCommitCursor :=
  match idxNum with
  | 0 => initNone fs st
  | 1 => initRev fs st vals
  | 2 => initRepo fs st vals
  | 3 => initBoth fs st vals
  | _ => .ok st

/-- `GitCommitCursor::next`. -/
def commitNext (st : GitCommitCursor) : GitCommitCursor :=
  { st with i := st.i + 1 }

/-- `commitNext` iterated. -/
def nextK (k : Nat) (st : GitCommitCursor) : GitCommitCursor :=
  match k with
  | 0 => st
  | k + 1 => nextK k (commitNext st)

/-- `GitCommitCursor::eof`: index at the end of the walk when no revision is
bound; strictly positive index when a revision is bound. -/
def commitEof (st : GitCommitCursor) : Bool :=
  match st.rev_param with
  | none => decide (st.i ≥ st.walk.length)
  | some _ => decide (st.i > 0)

/-- The projection of one column of the current row (`match i` of `column`). -/
def colVal (st : GitCommitCursor) (c : CommitShadow) (j : Nat) : SqlValue :=
  let optText : Option String → SqlValue := fun o =>
    match o with
    | none => SqlValue.null
    | some s => SqlValue.text s
  match j with
  | 0 => SqlValue.text c.hash
  | 1 => optText c.message
  | 2 => optText c.author_name
  | 3 => optText c.author_email
  | 4 => SqlValue.integer c.author_when
  | 5 => optText c.committer_name
  | 6 => optText c.committer_email
  | 7 => SqlValue.integer c.committer_when
  | 8 => SqlValue.integer (if c.is_merge then 1 else 0)
  | 9 => optText c.parent_1
  | 10 => optText c.parent_2
  | 11 => optText st.repo_param
  | 12 => optText st.rev_param
  | _ => SqlValue.null
/-- `GitCommitCursor::column`: `&self.walk[self.i]` aborts when the position
index is outside the materialized walk. -/
def commitColumn (st : GitCommitCursor) (j : Nat) : Outcome SqlValue :=
  match st.walk[st.i]? with
  | none => .fatal "index out of bounds"
  | some c => .ok (colVal st c j)

/- ## Concrete fixtures -/

def oidA : String := "aaaaaaaaaaaaaaaaaaaaaaaaaaaaaaaaaaaaaaaa"
def oidB : String := "bbbbbbbbbbbbbbbbbbbbbbbbbbbbbbbbbbbbbbbb"
def oidC : String := "cccccccccccccccccccccccccccccccccccccccc"
def oidD : String := "dddddddddddddddddddddddddddddddddddddddd"
def oidE : String := "eeeeeeeeeeeeeeeeeeeeeeeeeeeeeeeeeeeeeeee"
def oidF : String := "ffffffffffffffffffffffffffffffffffffffff"
def oidM : String := "abababababababababababababababababababab"

def mkCommit (oid : String) (parents : List String) (tid : String) : CommitData :=
  { oid := oid, message := none, author_name := none, author_email := none,
    author_when := 0, committer_name := none, committer_email := none,
    committer_when := 0, parents := parents, tree_id := tid }

/-- Two-commit repository: `A` has the single parent `B`, `B` is a root. -/
def repoAB : Repo :=
  { commits := [mkCommit oidA [oidB] "tA", mkCommit oidB [] "tB"]
    trees := [], head := some oidA, corrupt := [] }

def envAB : FS := { repos := [(".", repoAB)] }

/-- The same graph, but the object of `B` fails to load. -/
def repoCorrupt : Repo :=
  { commits := [mkCommit oidA [oidB] "tA", mkCommit oidB [] "tB"]
    trees := [], head := some oidA, corrupt := [oidB] }

def envCorrupt : FS := { repos := [(".", repoCorrupt)] }

def tree1 : Tree := [("hello.txt", ["one"])]
def tree2 : Tree := [("hello.txt", ["one", "two"])]

/-- Stats fixture: a root commit `C`, parents `D` and `E` of the merge commit
`F`, and a three-parent commit `M`. -/
def repoStats : Repo :=
  { commits :=
      [ mkCommit oidC [] "t1"
      , mkCommit oidD [] "t1"
      , mkCommit oidE [] "t2"
      , mkCommit oidF [oidD, oidE] "t1"
      , mkCommit oidM [oidC, oidD, oidE] "t2" ]
    trees := [("t1", tree1), ("t2", tree2)], head := some oidF, corrupt := [] }

/-- Unwraps a successful filter result, to give concrete cursor states a
name. -/
def forceOk (r : Outcome GitCommitCursor) : GitCommitCursor :=
  match r with
  | .ok st => st
  | _ => cursorOpen

/-- The cursor after a fresh revision-bound filter on `envAB`. -/
def stRevAB : GitCommitCursor :=
  forceOk (commitInit envAB cursorOpen 1 [SqlValue.text oidA])

/-- The cursor after re-running the same filter on the advanced cursor. -/
def stRevABRefiltered : GitCommitCursor :=
  forceOk (commitInit envAB (commitNext stRevAB) 1 [SqlValue.text oidA])

/-- The cursor after a fresh revision-bound filter on the repository with the
corrupt parent object. -/
def stRevCorrupt : GitCommitCursor :=
  forceOk (commitInit envCorrupt cursorOpen 1 [SqlValue.text oidA])

/-- The distinct commit ids of a repository. -/
def repoOids (repo : Repo) : List String :=
  (repo.commits.map (fun c => c.oid)).dedup

/-- How many repository ids are not yet visited — the decreasing measure of
the traversal. -/
def unvisitedCount (repo : Repo) (visited : List String) : Nat :=
  (repoOids repo).countP (fun o => decide (o ∉ visited))

/- # Theorems -/

/- ## Helper lemmas -/

theorem diffTreeToTree_self (t : Tree) : diffTreeToTree t t = [] := by
  have h : ∀ p : String, diffFileAt p (treeLookup t p) (treeLookup t p) = [] := by
    intro p
    simp [diffFileAt]
  simp [diffTreeToTree, h]

theorem assignLoop_get (steps : Nat) :
    ∀ (usage : List (Option Nat)) (counter j : Nat),
      (assignLoop usage steps counter)[j]? =
        if counter ≤ j ∧ j < counter + steps ∧ j < usage.length then some (some (j + 1))
        else usage[j]? := by
  induction steps with
  | zero =>
    intro usage counter j
    rw [assignLoop]
    exact (if_neg (by omega)).symm
  | succ steps ih =>
    intro usage counter j
    rw [assignLoop, ih]
    simp only [List.length_set]
    rw [List.getElem?_set]
    rcases Nat.lt_trichotomy counter j with hlt | heq | hgt
    · have h1 : counter ≠ j := by omega
      rw [if_neg h1]
      by_cases h2 : j < usage.length
      · by_cases h3 : j < counter + (steps + 1)
        · have c1 : counter + 1 ≤ j ∧ j < counter + 1 + steps ∧ j < usage.length := by omega
          have c2 : counter ≤ j ∧ j < counter + (steps + 1) ∧ j < usage.length := by omega
          rw [if_pos c1, if_pos c2]
        · have c1 : ¬(counter + 1 ≤ j ∧ j < counter + 1 + steps ∧ j < usage.length) := by omega
          have c2 : ¬(counter ≤ j ∧ j < counter + (steps + 1) ∧ j < usage.length) := by omega
          rw [if_neg c1, if_neg c2]
      · have c1 : ¬(counter + 1 ≤ j ∧ j < counter + 1 + steps ∧ j < usage.length) := by omega
        have c2 : ¬(counter ≤ j ∧ j < counter + (steps + 1) ∧ j < usage.length) := by omega
        rw [if_neg c1, if_neg c2]
    · subst heq
      have c1 : ¬(counter + 1 ≤ counter ∧ counter < counter + 1 + steps ∧
          counter < usage.length) := by omega
      rw [if_neg c1, if_pos rfl]
      by_cases h2 : counter < usage.length
      · have c2 : counter ≤ counter ∧ counter < counter + (steps + 1) ∧
            counter < usage.length := by omega
        rw [if_pos h2, if_pos c2]
      · have c2 : ¬(counter ≤ counter ∧ counter < counter + (steps + 1) ∧
            counter < usage.length) := by omega
        rw [if_neg h2, if_neg c2]
        exact (List.getElem?_eq_none (by omega)).symm
    · have h1 : counter ≠ j := by omega
      have c1 : ¬(counter + 1 ≤ j ∧ j < counter + 1 + steps ∧ j < usage.length) := by omega
      have c2 : ¬(counter ≤ j ∧ j < counter + (steps + 1) ∧ j < usage.length) := by omega
      rw [if_neg h1, if_neg c1, if_neg c2]

/- ## Traversal lemmas -/

theorem oks_nil : oks [] = [] := rfl

theorem oks_cons_ok (o : String) (t : List (Except Unit String)) :
    oks (Except.ok o :: t) = o :: oks t := rfl

theorem oks_cons_error (t : List (Except Unit String)) :
    oks (Except.error () :: t) = oks t := rfl

theorem lookupC_some {repo : Repo} {o : String} {c : CommitData}
    (h : lookupC repo o = some c) : c ∈ repo.commits ∧ c.oid = o := by
  unfold lookupC at h
  split at h
  · exact absurd h (by simp)
  · refine ⟨List.mem_of_find?_eq_some h, ?_⟩
    have := List.find?_some h
    simpa using this

theorem lookupC_mem_oids {repo : Repo} {o : String} {c : CommitData}
    (h : lookupC repo o = some c) : o ∈ repoOids repo := by
  obtain ⟨hc, ho⟩ := lookupC_some h
  unfold repoOids
  rw [List.mem_dedup]
  exact List.mem_map.mpr ⟨c, hc, ho⟩

theorem le_foldr_max (l : List Nat) : ∀ x ∈ l, x ≤ l.foldr Nat.max 0 := by
  induction l with
  | nil => simp
  | cons a t ih =>
    intro x hx
    rcases List.mem_cons.mp hx with rfl | hxt
    · exact Nat.le_max_left _ _
    · exact Nat.le_trans (ih x hxt) (Nat.le_max_right _ _)

theorem parents_le_maxParents {repo : Repo} {c : CommitData} (hc : c ∈ repo.commits) :
    c.parents.length ≤ maxParents repo :=
  le_foldr_max _ _ (List.mem_map.mpr ⟨c, hc, rfl⟩)

theorem countP_avoid_cons (o : String) (v : List String) :
    ∀ l : List String, l.Nodup → o ∈ l → o ∉ v →
      l.countP (fun x => decide (x ∉ o :: v)) + 1 = l.countP (fun x => decide (x ∉ v)) := by
  intro l
  induction l with
  | nil =>
    intro _ h
    exact absurd h (List.not_mem_nil o)
  | cons a t ih =>
    intro hnd ha hv
    rcases List.mem_cons.mp ha with rfl | hat
    · have hot : o ∉ t := (List.nodup_cons.mp hnd).1
      have heq : t.countP (fun x => decide (x ∉ o :: v)) =
          t.countP (fun x => decide (x ∉ v)) := by
        apply List.countP_congr
        intro x hx
        have hxo : x ≠ o := fun h => hot (h ▸ hx)
        simp [List.mem_cons, hxo]
      rw [List.countP_cons_of_neg _ _ (by simp), List.countP_cons_of_pos _ _ (by simpa using hv),
        heq]
    · have hnd' := (List.nodup_cons.mp hnd).2
      have hao : a ≠ o := by
        rintro rfl
        exact (List.nodup_cons.mp hnd).1 hat
      have hih := ih hnd' hat hv
      by_cases hav : a ∈ v
      · rw [List.countP_cons_of_neg _ _ (by simp [List.mem_cons, hav]),
          List.countP_cons_of_neg _ _ (by simpa using hav), hih]
      · rw [List.countP_cons_of_pos _ _ (by simp [List.mem_cons, hao, hav]),
          List.countP_cons_of_pos _ _ (by simpa using hav)]
        omega

theorem nodup_repoOids (repo : Repo) : (repoOids repo).Nodup :=
  List.nodup_dedup _

theorem unvisitedCount_cons {repo : Repo} {o : String} {visited : List String}
    (ho : o ∈ repoOids repo) (hv : o ∉ visited) :
    unvisitedCount repo (o :: visited) + 1 = unvisitedCount repo visited :=
  countP_avoid_cons o visited (repoOids repo) (nodup_repoOids repo) ho hv

theorem unvisitedCount_le (repo : Repo) (visited : List String) :
    unvisitedCount repo visited ≤ repo.commits.length := by
  unfold unvisitedCount
  calc (repoOids repo).countP (fun o => decide (o ∉ visited))
      ≤ (repoOids repo).length := List.countP_le_length _
    _ ≤ (repo.commits.map (fun c => c.oid)).length :=
        List.Sublist.length_le (List.dedup_sublist _)
    _ = repo.commits.length := List.length_map _ _

theorem RAvoid.start_not_visited {repo : Repo} {v : List String} {q x : String}
    (h : RAvoid repo v q x) : q ∉ v := by
  cases h with
  | refl _ h => exact h
  | step ha _ _ _ => exact ha

theorem RAvoid.target_not_visited {repo : Repo} {v : List String} {q x : String}
    (h : RAvoid repo v q x) : x ∉ v := by
  induction h with
  | refl _ h => exact h
  | step _ _ _ _ ih => exact ih

theorem RAvoid.weaken {repo : Repo} {o : String} {v : List String} {q x : String}
    (h : RAvoid repo (o :: v) q x) : RAvoid repo v q x := by
  induction h with
  | refl a ha => exact RAvoid.refl a (fun hm => ha (List.mem_cons_of_mem o hm))
  | step ha h1 h2 _ ih =>
    exact RAvoid.step (fun hm => ha (List.mem_cons_of_mem o hm)) h1 h2 ih

theorem RAvoid.split {repo : Repo} {v : List String} {o q x : String}
    (h : RAvoid repo v q x) :
    x ∉ v → x ≠ o →
    RAvoid repo (o :: v) q x ∨
      ∃ c : CommitData, lookupC repo o = some c ∧
        ∃ p ∈ c.parents, RAvoid repo (o :: v) p x := by
  induction h with
  | refl a ha =>
    intro _ hxo
    left
    refine RAvoid.refl a ?_
    intro hm
    rcases List.mem_cons.mp hm with rfl | hm2
    · exact hxo rfl
    · exact ha hm2
  | @step a b p c ha h1 h2 h3 ih =>
    intro hx hxo
    rcases ih hx hxo with hleft | hright
    · by_cases hao : a = o
      · subst hao
        exact Or.inr ⟨c, h1, p, h2, hleft⟩
      · left
        refine RAvoid.step ?_ h1 h2 hleft
        intro hm
        rcases List.mem_cons.mp hm with rfl | hm2
        · exact hao rfl
        · exact ha hm2
    · exact Or.inr hright

theorem RAvoid_nil_iff {repo : Repo} {q x : String} :
    RAvoid repo [] q x ↔ Reachable repo q x := by
  constructor
  · intro h
    induction h with
    | refl a _ => exact Reachable.refl a
    | step _ h1 h2 _ ih => exact Reachable.step h1 h2 ih
  · intro h
    induction h with
    | refl a => exact RAvoid.refl a (List.not_mem_nil a)
    | step h1 h2 _ ih => exact RAvoid.step (List.not_mem_nil _) h1 h2 ih

theorem revwalkAux_oks_not_visited (repo : Repo) :
    ∀ (fuel : Nat) (queue visited : List String) (x : String),
      x ∈ oks (revwalkAux repo fuel queue visited) → x ∉ visited := by
  intro fuel
  induction fuel with
  | zero =>
    intro queue visited x hx
    simp [revwalkAux, oks] at hx
  | succ fuel ih =>
    intro queue visited x hx
    match queue with
    | [] => simp [revwalkAux, oks] at hx
    | o :: rest =>
      rw [revwalkAux] at hx
      by_cases ho : o ∈ visited
      · rw [if_pos ho] at hx
        exact ih rest visited x hx
      · rw [if_neg ho] at hx
        cases hc : lookupC repo o with
        | none =>
          rw [hc] at hx
          simp [oks] at hx
        | some c =>
          rw [hc, oks_cons_ok] at hx
          rcases List.mem_cons.mp hx with rfl | hx2
          · exact ho
          · have hxnv := ih (rest ++ c.parents) (o :: visited) x hx2
            exact fun hm => hxnv (List.mem_cons_of_mem o hm)

theorem revwalkAux_oks_nodup (repo : Repo) :
    ∀ (fuel : Nat) (queue visited : List String),
      (oks (revwalkAux repo fuel queue visited)).Nodup := by
  intro fuel
  induction fuel with
  | zero =>
    intro queue visited
    simp [revwalkAux, oks]
  | succ fuel ih =>
    intro queue visited
    match queue with
    | [] => simp [revwalkAux, oks]
    | o :: rest =>
      rw [revwalkAux]
      by_cases ho : o ∈ visited
      · rw [if_pos ho]
        exact ih rest visited
      · rw [if_neg ho]
        cases hc : lookupC repo o with
        | none => simp [oks]
        | some c =>
          rw [oks_cons_ok]
          refine List.nodup_cons.mpr ⟨?_, ih (rest ++ c.parents) (o :: visited)⟩
          intro hmem
          have := revwalkAux_oks_not_visited repo fuel (rest ++ c.parents) (o :: visited) o hmem
          exact this (List.mem_cons_self o visited)

theorem revwalkAux_oks_lookup (repo : Repo) :
    ∀ (fuel : Nat) (queue visited : List String) (x : String),
      x ∈ oks (revwalkAux repo fuel queue visited) → (lookupC repo x).isSome = true := by
  intro fuel
  induction fuel with
  | zero =>
    intro queue visited x hx
    simp [revwalkAux, oks] at hx
  | succ fuel ih =>
    intro queue visited x hx
    match queue with
    | [] => simp [revwalkAux, oks] at hx
    | o :: rest =>
      rw [revwalkAux] at hx
      by_cases ho : o ∈ visited
      · rw [if_pos ho] at hx
        exact ih rest visited x hx
      · rw [if_neg ho] at hx
        cases hc : lookupC repo o with
        | none =>
          rw [hc] at hx
          simp [oks] at hx
        | some c =>
          rw [hc, oks_cons_ok] at hx
          rcases List.mem_cons.mp hx with rfl | hx2
          · simp [hc]
          · exact ih (rest ++ c.parents) (o :: visited) x hx2

/-- The heart of the traversal proof: with sufficient fuel, an id is yielded
exactly when it is reachable from some queued id along not-yet-visited ids. -/
theorem revwalkAux_mem (repo : Repo) (hclosed : ClosedRepo repo) :
    ∀ (fuel : Nat) (queue visited : List String),
      queue.length + unvisitedCount repo visited * (maxParents repo + 2) ≤ fuel →
      (∀ q ∈ queue, (lookupC repo q).isSome = true) →
      ∀ x, x ∈ oks (revwalkAux repo fuel queue visited) ↔
        (x ∉ visited ∧ ∃ q ∈ queue, RAvoid repo visited q x) := by
  intro fuel
  induction fuel with
  | zero =>
    intro queue visited hfuel hq x
    have hqnil : queue = [] := by
      cases queue with
      | nil => rfl
      | cons a t => simp at hfuel
    subst hqnil
    simp [revwalkAux, oks]
  | succ fuel ih =>
    intro queue visited hfuel hq x
    match queue with
    | [] =>
      simp [revwalkAux, oks]
    | o :: rest =>
      rw [revwalkAux]
      by_cases ho : o ∈ visited
      · rw [if_pos ho]
        have hfuel2 : rest.length + unvisitedCount repo visited * (maxParents repo + 2) ≤
            fuel := by
          simp only [List.length_cons] at hfuel
          omega
        rw [ih rest visited hfuel2 (fun q hq2 => hq q (List.mem_cons_of_mem o hq2)) x]
        constructor
        · rintro ⟨hx, q, hqmem, hra⟩
          exact ⟨hx, q, List.mem_cons_of_mem o hqmem, hra⟩
        · rintro ⟨hx, q, hqmem, hra⟩
          rcases List.mem_cons.mp hqmem with rfl | hq2
          · exact absurd ho hra.start_not_visited
          · exact ⟨hx, q, hq2, hra⟩
      · rw [if_neg ho]
        obtain ⟨c, hc⟩ := Option.isSome_iff_exists.mp (hq o (List.mem_cons_self o rest))
        rw [hc, oks_cons_ok]
        have hcmem := (lookupC_some hc).1
        have hfuel3 : (rest ++ c.parents).length +
            unvisitedCount repo (o :: visited) * (maxParents repo + 2) ≤ fuel := by
          have hpar : c.parents.length ≤ maxParents repo := parents_le_maxParents hcmem
          have hcount : unvisitedCount repo (o :: visited) + 1 = unvisitedCount repo visited :=
            unvisitedCount_cons (lookupC_mem_oids hc) ho
          have hprod : unvisitedCount repo visited * (maxParents repo + 2) =
              unvisitedCount repo (o :: visited) * (maxParents repo + 2) +
                (maxParents repo + 2) := by
            rw [← hcount]
            ring
          simp only [List.length_append, List.length_cons] at hfuel ⊢
          omega
        have hq3 : ∀ q ∈ rest ++ c.parents, (lookupC repo q).isSome = true := by
          intro q hq2
          rcases List.mem_append.mp hq2 with hql | hqr
          · exact hq q (List.mem_cons_of_mem o hql)
          · exact hclosed c hcmem q hqr
        constructor
        · intro hx
          rcases List.mem_cons.mp hx with rfl | hx2
          · exact ⟨ho, x, List.mem_cons_self x rest, RAvoid.refl x ho⟩
          · rw [ih (rest ++ c.parents) (o :: visited) hfuel3 hq3 x] at hx2
            obtain ⟨hxnv, q, hqmem, hra⟩ := hx2
            have hxv : x ∉ visited := fun hm => hxnv (List.mem_cons_of_mem o hm)
            rcases List.mem_append.mp hqmem with hql | hqr
            · exact ⟨hxv, q, List.mem_cons_of_mem o hql, hra.weaken⟩
            · exact ⟨hxv, o, List.mem_cons_self o rest,
                RAvoid.step ho hc hqr hra.weaken⟩
        · rintro ⟨hx, q, hqmem, hra⟩
          by_cases hxo : x = o
          · subst hxo
            exact List.mem_cons_self x _
          · refine List.mem_cons_of_mem o ?_
            rw [ih (rest ++ c.parents) (o :: visited) hfuel3 hq3 x]
            have hxnv : x ∉ o :: visited := by
              intro hm
              rcases List.mem_cons.mp hm with rfl | hm2
              · exact hxo rfl
              · exact hx hm2
            refine ⟨hxnv, ?_⟩
            rcases hra.split hx hxo with hleft | hright
            · have hqo : q ≠ o := by
                intro hqe
                subst hqe
                exact hleft.start_not_visited (List.mem_cons_self q visited)
              rcases List.mem_cons.mp hqmem with rfl | hq2
              · exact absurd rfl hqo
              · exact ⟨q, List.mem_append_left _ hq2, hleft⟩
            · obtain ⟨c2, hc2, p, hp, hra2⟩ := hright
              rw [hc] at hc2
              obtain rfl := Option.some.inj hc2
              exact ⟨p, List.mem_append_right _ hp, hra2⟩

/-- The id stream of a successful `push(root)` walk contains exactly the
ancestors of `root`, assuming a parent-closed repository. -/
theorem revwalk_mem (repo : Repo) (hclosed : ClosedRepo repo) (root : String)
    (hroot : (lookupC repo root).isSome = true) (x : String) :
    x ∈ oks (revwalk repo root) ↔ Reachable repo root x := by
  unfold revwalk
  have hfuel : [root].length + unvisitedCount repo [] * (maxParents repo + 2) ≤
      repo.commits.length * (maxParents repo + 2) + 1 := by
    have := Nat.mul_le_mul_right (maxParents repo + 2) (unvisitedCount_le repo [])
    simp only [List.length_cons, List.length_nil]
    omega
  have hq : ∀ q ∈ [root], (lookupC repo q).isSome = true := by
    intro q hq2
    rcases List.mem_cons.mp hq2 with rfl | hq3
    · exact hroot
    · exact absurd hq3 (List.not_mem_nil q)
  rw [revwalkAux_mem repo hclosed _ [root] [] hfuel hq x]
  constructor
  · rintro ⟨_, q, hqmem, hra⟩
    rcases List.mem_cons.mp hqmem with rfl | hq2
    · exact RAvoid_nil_iff.mp hra
    · exact absurd hq2 (List.not_mem_nil q)
  · intro h
    exact ⟨List.not_mem_nil x, root, List.mem_cons_self root [],
      RAvoid_nil_iff.mpr h⟩

theorem revwalk_oks_nodup (repo : Repo) (root : String) :
    (oks (revwalk repo root)).Nodup :=
  revwalkAux_oks_nodup repo _ [root] []

theorem revwalk_oks_lookup (repo : Repo) (root x : String)
    (hx : x ∈ oks (revwalk repo root)) : (lookupC repo x).isSome = true :=
  revwalkAux_oks_lookup repo _ [root] [] x hx

/-- A successful push makes the walk yield at least the pushed id. -/
theorem revwalk_oks_ne_nil (repo : Repo) (root : String)
    (hroot : (lookupC repo root).isSome = true) : oks (revwalk repo root) ≠ [] := by
  obtain ⟨c, hc⟩ := Option.isSome_iff_exists.mp hroot
  unfold revwalk
  rw [revwalkAux]
  rw [if_neg (List.not_mem_nil root), hc, oks_cons_ok]
  exact List.cons_ne_nil root _

/- ## Materialization lemmas -/

/-- A successful lenient materialization snapshots exactly the yielded ids. -/
theorem shadowsLenient_ok_hashes (repo : Repo) :
    ∀ (items : List (Except Unit String)) (w : List CommitShadow),
      shadowsLenient repo items = .ok w → w.map CommitShadow.hash = oks items := by
  intro items
  induction items with
  | nil =>
    intro w h
    rw [shadowsLenient] at h
    cases h
    rfl
  | cons e rest ih =>
    intro w h
    match e with
    | .error u =>
      cases u
      rw [shadowsLenient] at h
      rw [oks_cons_error]
      exact ih w h
    | .ok o =>
      rw [shadowsLenient] at h
      cases hc : lookupC repo o with
      | none =>
        rw [hc] at h
        exact absurd h (by simp)
      | some c =>
        rw [hc] at h
        cases hr : shadowsLenient repo rest with
        | ok l =>
          rw [hr] at h
          cases h
          rw [oks_cons_ok]
          simp only [List.map_cons]
          rw [ih l hr]
          simp [toShadow, (lookupC_some hc).2]
        | error e2 =>
          rw [hr] at h
          exact absurd h (by simp)
        | fatal m =>
          rw [hr] at h
          exact absurd h (by simp)

/-- The skipping materialization snapshots exactly the yielded ids, provided
every yielded id is loadable (which the walk guarantees). -/
theorem shadowsSkip_hashes (repo : Repo) :
    ∀ items : List (Except Unit String),
      (∀ x ∈ oks items, (lookupC repo x).isSome = true) →
      (shadowsSkip repo items).map CommitShadow.hash = oks items := by
  intro items
  induction items with
  | nil => intro _; rfl
  | cons e rest ih =>
    intro hall
    match e with
    | .error u =>
      cases u
      rw [shadowsSkip, oks_cons_error]
      refine ih (fun x hx => hall x ?_)
      rw [oks_cons_error]
      exact hx
    | .ok o =>
      have ho : (lookupC repo o).isSome = true := by
        refine hall o ?_
        rw [oks_cons_ok]
        exact List.mem_cons_self o _
      obtain ⟨c, hc⟩ := Option.isSome_iff_exists.mp ho
      rw [shadowsSkip, hc, oks_cons_ok]
      simp only [List.map_cons]
      have htail : (shadowsSkip repo rest).map CommitShadow.hash = oks rest := by
        refine ih (fun x hx => hall x ?_)
        rw [oks_cons_ok]
        exact List.mem_cons_of_mem o hx
      rw [htail]
      simp [toShadow, (lookupC_some hc).2]

/- ## Filter extraction lemmas -/

theorem initRev_ok {fs : FS} {st st1 : GitCommitCursor} {vals : List SqlValue}
    (h : initRev fs st vals = .ok st1) :
    ∃ newRepo repoUsed r,
      openRepo fs "." = some newRepo ∧
      onceSet st.repo newRepo = some repoUsed ∧
      (vals.head? >>= sqlAsStr) = some r ∧
      validOid r = true ∧
      (lookupC repoUsed r).isSome = true ∧
      shadowsLenient repoUsed (revwalk repoUsed r) = .ok st1.walk ∧
      st1.rev_param = some r ∧ st1.repo_param = none ∧
      st1.repo = some repoUsed ∧ st1.i = st.i := by
  unfold initRev at h
  cases ho : openRepo fs "." with
  | none =>
    rw [ho] at h
    exact absurd h (by simp)
  | some newRepo =>
    rw [ho] at h
    dsimp only at h
    cases hs : onceSet st.repo newRepo with
    | none =>
      rw [hs] at h
      exact absurd h (by simp)
    | some repoUsed =>
      rw [hs] at h
      dsimp only at h
      cases hr : vals.head? >>= sqlAsStr with
      | none =>
        rw [hr] at h
        exact absurd h (by simp)
      | some r =>
        rw [hr] at h
        dsimp only at h
        cases hv : validOid r with
        | false =>
          rw [hv, if_pos rfl] at h
          exact absurd h (by simp)
        | true =>
          rw [hv, if_neg (by simp)] at h
          cases hp : pushOid repoUsed r with
          | false =>
            rw [hp, if_pos rfl] at h
            exact absurd h (by simp)
          | true =>
            rw [hp, if_neg (by simp)] at h
            cases hw : shadowsLenient repoUsed (revwalk repoUsed r) with
            | ok w =>
              rw [hw] at h
              dsimp only at h
              cases h
              refine ⟨newRepo, repoUsed, r, ?_, ?_, ?_, ?_, ?_, ?_, ?_, ?_, ?_, ?_⟩ <;>
                first | rfl | exact ho | exact hs | exact hr | exact hv | exact hp | exact hw
            | error e2 =>
              rw [hw] at h
              exact absurd h (by simp)
            | fatal m =>
              rw [hw] at h
              exact absurd h (by simp)

theorem initBothResolved_ok {fs : FS} {st st1 : GitCommitCursor} {path : String}
    {rev : Option String} (h : initBothResolved fs st path rev = .ok st1) :
    ∃ newRepo r,
      openRepo fs path = some newRepo ∧ st.repo = none ∧ rev = some r ∧
      validOid r = true ∧ (lookupC newRepo r).isSome = true ∧
      shadowsSkip newRepo (revwalk newRepo r) = st1.walk ∧
      st1.rev_param = some r ∧ st1.repo_param = some path ∧
      st1.repo = some newRepo ∧ st1.i = st.i := by
  unfold initBothResolved at h
  cases ho : openRepo fs path with
  | none =>
    rw [ho] at h
    exact absurd h (by simp)
  | some newRepo =>
    rw [ho] at h
    dsimp only at h
    cases hcell : st.repo with
    | some old =>
      rw [hcell] at h
      exact absurd h (by simp)
    | none =>
      rw [hcell] at h
      dsimp only at h
      cases hrev : rev with
      | none =>
        rw [hrev] at h
        exact absurd h (by simp)
      | some r =>
        rw [hrev] at h
        dsimp only at h
        cases hv : validOid r with
        | false =>
          rw [hv, if_pos rfl] at h
          exact absurd h (by simp)
        | true =>
          rw [hv, if_neg (by simp)] at h
          cases hp : pushOid newRepo r with
          | false =>
            rw [hp, if_pos rfl] at h
            exact absurd h (by simp)
          | true =>
            rw [hp, if_neg (by simp)] at h
            cases h
            refine ⟨newRepo, r, ?_, ?_, ?_, ?_, ?_, ?_, ?_, ?_, ?_, ?_⟩ <;>
              first | rfl | exact ho | exact hcell | exact hrev | exact hv | exact hp

theorem initBoth_ok {fs : FS} {st st1 : GitCommitCursor} {vals : List SqlValue}
    (h : initBoth fs st vals = .ok st1) :
    ∃ path rev, initBothResolved fs st path rev = .ok st1 := by
  unfold initBoth at h
  cases hp : vals.head? >>= sqlAsStr with
  | none =>
    rw [hp] at h
    exact absurd h (by simp)
  | some path =>
    rw [hp] at h
    dsimp only at h
    cases hv : vals[1]? with
    | none =>
      rw [hv] at h
      dsimp only at h
      exact ⟨path, none, h⟩
    | some v =>
      rw [hv] at h
      dsimp only at h
      cases hs : sqlAsStr v with
      | none =>
        rw [hs] at h
        exact absurd h (by simp)
      | some r =>
        rw [hs] at h
        dsimp only at h
        exact ⟨path, some r, h⟩

theorem initNone_ok {fs : FS} {st st1 : GitCommitCursor}
    (h : initNone fs st = .ok st1) : st1.rev_param = none ∧ st1.i = 0 := by
  unfold initNone at h
  cases ho : openRepo fs "." with
  | none =>
    rw [ho] at h
    exact absurd h (by simp)
  | some newRepo =>
    rw [ho] at h
    dsimp only at h
    cases hs : onceSet st.repo newRepo with
    | none =>
      rw [hs] at h
      exact absurd h (by simp)
    | some repoUsed =>
      rw [hs] at h
      dsimp only at h
      cases hh : pushHead repoUsed with
      | none =>
        rw [hh] at h
        exact absurd h (by simp)
      | some hd =>
        rw [hh] at h
        dsimp only at h
        cases hw : shadowsStrict repoUsed (revwalk repoUsed hd) with
        | ok w =>
          rw [hw] at h
          dsimp only at h
          cases h
          exact ⟨rfl, rfl⟩
        | error e2 =>
          rw [hw] at h
          exact absurd h (by simp)
        | fatal m =>
          rw [hw] at h
          exact absurd h (by simp)

theorem initRepo_ok {fs : FS} {st st1 : GitCommitCursor} {vals : List SqlValue}
    (h : initRepo fs st vals = .ok st1) : st1.rev_param = none ∧ st1.i = st.i := by
  unfold initRepo at h
  cases hp : vals.head? >>= sqlAsStr with
  | none =>
    rw [hp] at h
    exact absurd h (by simp)
  | some path =>
    rw [hp] at h
    dsimp only at h
    cases ho : openRepo fs path with
    | none =>
      rw [ho] at h
      exact absurd h (by simp)
    | some newRepo =>
      rw [ho] at h
      dsimp only at h
      cases hs : onceSet st.repo newRepo with
      | none =>
        rw [hs] at h
        exact absurd h (by simp)
      | some repoUsed =>
        rw [hs] at h
        dsimp only at h
        cases hh : pushHead repoUsed with
        | none =>
          rw [hh] at h
          exact absurd h (by simp)
        | some hd =>
          rw [hh] at h
          dsimp only at h
          cases h
          exact ⟨rfl, rfl⟩

/- ## Cursor iteration lemmas -/

theorem nextK_fields (k : Nat) : ∀ st : GitCommitCursor,
    (nextK k st).i = st.i + k ∧ (nextK k st).walk = st.walk ∧
    (nextK k st).rev_param = st.rev_param := by
  induction k with
  | zero =>
    intro st
    exact ⟨rfl, rfl, rfl⟩
  | succ k ih =>
    intro st
    obtain ⟨h1, h2, h3⟩ := ih (commitNext st)
    refine ⟨?_, h2, h3⟩
    rw [nextK, h1]
    simp [commitNext]
    omega

theorem commitColumn_isOk {st : GitCommitCursor} (h : st.i < st.walk.length) (j : Nat) :
    (commitColumn st j).isOk = true := by
  unfold commitColumn
  rw [List.getElem?_eq_getElem h]
  rfl

/-- C4: for a commit with exactly two parents, `compute_diff` diffs the second
parent's tree (new side) against the first parent's tree (old side); the merge
commit's own tree does not occur in the result, and the diff is a plain
two-tree comparison, not a three-way merge diff. -/
theorem C4_merge_diff_second_vs_first_parent
    (repo : Repo) (hash po1 po2 : String) (commit pc1 pc2 : CommitData) (t1 t2 : Tree)
    (hv : validOid hash = true)
    (hc : lookupC repo hash = some commit)
    (hp : commit.parents = [po1, po2])
    (h1 : lookupC repo po1 = some pc1)
    (h2 : lookupC repo po2 = some pc2)
    (ht1 : findTree repo pc1.tree_id = some t1)
    (ht2 : findTree repo pc2.tree_id = some t2) :
    computeDiff repo hash = .ok (aggregate (diffTreeToTree t1 t2)) := by
  simp [computeDiff, hv, hc, hp, h1, h2, ht1, ht2]

/-- Witness for C4 at the merge commit `F` of the stats fixture. -/
theorem C4_merge_diff_second_vs_first_parent_witness :
    computeDiff repoStats oidF = .ok (aggregate (diffTreeToTree tree1 tree2)) :=
  C4_merge_diff_second_vs_first_parent repoStats oidF oidD oidE
    (mkCommit oidF [oidD, oidE] "t1") (mkCommit oidD [] "t1") (mkCommit oidE [] "t2")
    tree1 tree2 (by decide) (by decide) rfl (by decide) (by decide) (by decide) (by decide)

/-- C5: for a root commit (no parents), `compute_diff` compares the commit's
tree with itself and therefore returns the empty row set. -/
theorem C5_root_commit_empty_stats
    (repo : Repo) (hash : String) (commit : CommitData) (t : Tree)
    (hv : validOid hash = true)
    (hc : lookupC repo hash = some commit)
    (hp : commit.parents = [])
    (ht : findTree repo commit.tree_id = some t) :
    computeDiff repo hash = .ok [] := by
  simp [computeDiff, hv, hc, hp, ht, diffTreeToTree_self, aggregate]

/-- Witness for C5 at the root commit `C` of the stats fixture. -/
theorem C5_root_commit_empty_stats_witness :
    computeDiff repoStats oidC = .ok [] :=
  C5_root_commit_empty_stats repoStats oidC (mkCommit oidC [] "t1") tree1
    (by decide) (by decide) rfl (by decide)

/-- C8 (code bug): for a commit with three parents the stats computation does
not surface an error result; it runs the process-aborting arm with the source
message, both in `compute_diff` and through `GitStatsCursor::filter`. -/
theorem C8_three_parent_process_abort :
    computeDiff repoStats oidM = .fatal "Commit has more than 2 parents" ∧
    statsFilter { diffs := [], i := 0, hash := oidM, repo := repoStats }
      [SqlValue.text oidM] = .fatal "Commit has more than 2 parents" := by
  constructor
  · rfl
  · rfl

/-- C6 (counterexample): the bind-mode is not a function of the set of usable
constrained hidden columns.  The constraint sets `{ref = ..}` and
`{hash = .., ref = ..}` both bind exactly the hidden revision column 12, yet
the first is planned as RevisionBound (1) and the second as Unbound (0) — the
claim's mapping demands RevisionBound for both. -/
theorem C6_hidden_set_counterexample :
    hiddenUsableCols [ConstraintInfo.mk 12 true] = [12] ∧
    hiddenUsableCols [ConstraintInfo.mk 0 true, ConstraintInfo.mk 12 true] = [12] ∧
    bestIndexNum [ConstraintInfo.mk 12 true] = 1 ∧
    bestIndexNum [ConstraintInfo.mk 0 true, ConstraintInfo.mk 12 true] = 0 := by
  refine ⟨rfl, rfl, rfl, rfl⟩

/-- C6 (amended): the bind-mode is selected by exact match on the ascending
sorted list of the columns of all usable constraints (hidden or not):
`[11, 12]` gives BothBound, `[11]` RepositoryBound, `[12]` RevisionBound, and
every other list — including any containing a non-hidden column — gives
Unbound.  Consequently the mode depends only on the multiset of usable
constrained columns, not on their presentation order. -/
theorem C6_bind_mode_exact_match_on_all_usable_columns
    (cs cs' : List ConstraintInfo) (hperm : List.Perm (usableCols cs) (usableCols cs')) :
    bestIndexNum cs = bestIndexNum cs' ∧
    bestIndexNum cs =
      (if sortCols (usableCols cs) = [11, 12] then 3
       else if sortCols (usableCols cs) = [11] then 2
       else if sortCols (usableCols cs) = [12] then 1 else 0) := by
  have hsort : ∀ l l' : List Nat, List.Perm l l' → sortCols l = sortCols l' := by
    intro l l' hp
    exact List.eq_of_perm_of_sorted
      (((List.perm_insertionSort _ l).trans hp).trans (List.perm_insertionSort _ l').symm)
      (List.sorted_insertionSort _ l) (List.sorted_insertionSort _ l')
  constructor
  · unfold bestIndexNum
    rw [hsort _ _ hperm]
  · unfold bestIndexNum
    rcases h : sortCols (usableCols cs) with _ | ⟨a, _ | ⟨b, _ | ⟨c, rest⟩⟩⟩ <;>
      simp_all

/-- Witness for the amended C6: two presentations of the same usable columns
(in swapped order, among them the non-hidden column 0) plan the same mode, and
that mode is the exact-match value 0. -/
theorem C6_bind_mode_exact_match_witness :
    bestIndexNum [ConstraintInfo.mk 0 true, ConstraintInfo.mk 12 true] =
      bestIndexNum [ConstraintInfo.mk 12 true, ConstraintInfo.mk 0 true] ∧
    bestIndexNum [ConstraintInfo.mk 0 true, ConstraintInfo.mk 12 true] = 0 :=
  ⟨(C6_bind_mode_exact_match_on_all_usable_columns
      [ConstraintInfo.mk 0 true, ConstraintInfo.mk 12 true]
      [ConstraintInfo.mk 12 true, ConstraintInfo.mk 0 true] (by decide)).1,
   by rfl⟩

/-- C7 (counterexample): argument slots are not assigned in ascending column
order.  With constraints presented as `[ref (12), repository (11)]` the
column-12 constraint receives slot 1 and the column-11 constraint slot 2;
swapping the presentation swaps which column gets slot 1, so the assignment
depends on presentation order; and with `[ref (12, unusable),
repository (11, usable)]` the unusable constraint receives the only slot while
the usable one receives none. -/
theorem C7_positional_assignment_counterexample :
    argvAssign [ConstraintInfo.mk 12 true, ConstraintInfo.mk 11 true] = [some 1, some 2] ∧
    argvAssign [ConstraintInfo.mk 11 true, ConstraintInfo.mk 12 true] = [some 1, some 2] ∧
    argvAssign [ConstraintInfo.mk 12 false, ConstraintInfo.mk 11 true] = [some 1, none] := by
  refine ⟨rfl, rfl, rfl⟩

/-- C7 (amended): the planner assigns argv slots positionally: with n usable
constraints, the first n constraints of the engine's presentation order
receive slots 1..n (regardless of their columns and of their own usability)
and all later constraints receive none. -/
theorem C7_slots_assigned_positionally (cs : List ConstraintInfo) (j : Nat) :
    (argvAssign cs)[j]? =
      if j < (usableCols cs).length then some (some (j + 1))
      else if j < cs.length then some none else none := by
  have hle : (usableCols cs).length ≤ cs.length := by
    unfold usableCols
    calc ((cs.filter (fun c => c.usable)).map (fun c => c.column)).length
        = (cs.filter (fun c => c.usable)).length := by simp
      _ ≤ cs.length := List.length_filter_le _ cs
  unfold argvAssign
  rw [assignLoop_get]
  have hmap : ∀ k : Nat, (cs.map (fun _ => (none : Option Nat)))[k]? =
      if k < cs.length then some none else none := by
    intro k
    by_cases hk : k < cs.length
    · rw [if_pos hk, List.getElem?_map]
      rcases h : cs[k]? with _ | c
      · rw [List.getElem?_eq_none_iff] at h
        omega
      · rfl
    · rw [if_neg hk]
      have hlen : (cs.map (fun _ => (none : Option Nat))).length ≤ k := by
        simp
        omega
      exact List.getElem?_eq_none hlen
  simp only [List.length_map]
  rw [hmap]
  split_ifs <;> first
    | rfl
    | omega

/- ## Eof characterization lemmas -/

theorem commitEof_none {st : GitCommitCursor} (h : st.rev_param = none) :
    commitEof st = decide (st.i ≥ st.walk.length) := by
  unfold commitEof
  rw [h]

theorem commitEof_some {st : GitCommitCursor} {r : String} (h : st.rev_param = some r) :
    commitEof st = decide (st.i > 0) := by
  unfold commitEof
  rw [h]

/-- C1: a Filter call in a revision-binding mode (1 or 3) on a fresh cursor
materializes the full ancestor traversal of the bound revision: the walk
contains exactly the commits reachable from the revision (both parents of
merge commits followed), each exactly once — not just the single bound
commit. -/
theorem C1_revision_bound_materializes_full_ancestry
    (fs : FS) (st0 st1 : GitCommitCursor) (repo : Repo) (idx : Nat)
    (vals : List SqlValue) (rev : String)
    (hfresh : st0.repo = none)
    (hclosed : ClosedRepo repo)
    (hmode : (idx = 1 ∧ vals = [SqlValue.text rev] ∧ openRepo fs "." = some repo) ∨
             (idx = 3 ∧ ∃ path, vals = [SqlValue.text path, SqlValue.text rev] ∧
               openRepo fs path = some repo))
    (hok : commitInit fs st0 idx vals = .ok st1) :
    (∀ x, x ∈ st1.walk.map CommitShadow.hash ↔ Reachable repo rev x) ∧
    (st1.walk.map CommitShadow.hash).Nodup := by
  rcases hmode with ⟨hidx, hvals, hopen⟩ | ⟨hidx, path, hvals, hopen⟩
  · subst hidx
    subst hvals
    have h1 : initRev fs st0 [SqlValue.text rev] = .ok st1 := hok
    obtain ⟨newRepo, repoUsed, r, ho, hs, hhead, hv, hlook, hwalk, hrv, hpp, hcc, hii⟩ :=
      initRev_ok h1
    have hrrev : r = rev := by
      simp [sqlAsStr] at hhead
      exact hhead.symm
    have hnr : newRepo = repo := by
      rw [ho] at hopen
      exact Option.some.inj hopen
    have hru : repoUsed = repo := by
      rw [hfresh] at hs
      rw [← hnr]
      exact (Option.some.inj hs).symm
    rw [hrrev, hru] at hlook hwalk
    have hmap := shadowsLenient_ok_hashes repo _ st1.walk hwalk
    constructor
    · intro x
      rw [hmap]
      exact revwalk_mem repo hclosed rev hlook x
    · rw [hmap]
      exact revwalk_oks_nodup repo rev
  · subst hidx
    subst hvals
    have h1 : initBoth fs st0 [SqlValue.text path, SqlValue.text rev] = .ok st1 := hok
    have h2 : initBothResolved fs st0 path (some rev) = .ok st1 := by
      simpa [initBoth, sqlAsStr] using h1
    obtain ⟨newRepo, r, ho, hcell, hrev2, hv, hlook, hwalk, hrv, hpp, hcc, hii⟩ :=
      initBothResolved_ok h2
    have hrrev : r = rev := (Option.some.inj hrev2).symm
    have hnr : newRepo = repo := by
      rw [ho] at hopen
      exact Option.some.inj hopen
    rw [hrrev, hnr] at hlook hwalk
    have hmap : st1.walk.map CommitShadow.hash = oks (revwalk repo rev) := by
      rw [← hwalk]
      exact shadowsSkip_hashes repo _ (fun x hx => revwalk_oks_lookup repo rev x hx)
    constructor
    · intro x
      rw [hmap]
      exact revwalk_mem repo hclosed rev hlook x
    · rw [hmap]
      exact revwalk_oks_nodup repo rev

/-- Witness for C1 on the two-commit fixture: the parent `B` of the bound
revision `A` is in the materialized walk if and only if it is reachable (and
it is), and the walk has no duplicates. -/
theorem C1_revision_bound_materializes_full_ancestry_witness :
    (oidB ∈ stRevAB.walk.map CommitShadow.hash ↔ Reachable repoAB oidA oidB) ∧
    (stRevAB.walk.map CommitShadow.hash).Nodup :=
  ⟨(C1_revision_bound_materializes_full_ancestry envAB cursorOpen stRevAB repoAB 1
      [SqlValue.text oidA] oidA rfl (by decide) (Or.inl ⟨rfl, rfl, rfl⟩) rfl).1 oidB,
   (C1_revision_bound_materializes_full_ancestry envAB cursorOpen stRevAB repoAB 1
      [SqlValue.text oidA] oidA rfl (by decide) (Or.inl ⟨rfl, rfl, rfl⟩) rfl).2⟩

/-- C2 (counterexample): in the revision-bound mode, Eof is not "the index
reached the length of the materialized sequence": after one Next on the
two-commit fixture the cursor reports Eof although the index (1) is still
strictly below the walk length (2). -/
theorem C2_eof_counterexample :
    commitInit envAB cursorOpen 1 [SqlValue.text oidA] = .ok stRevAB ∧
    (commitNext stRevAB).i < (commitNext stRevAB).walk.length ∧
    commitEof (commitNext stRevAB) = true := by
  refine ⟨rfl, by decide, by decide⟩

/-- C2 (amended): Eof is "index has reached the length of the materialized
sequence" exactly when no revision is bound (the modes 0 and 2 produce such a
cursor); when a revision is bound (modes 1 and 3) Eof is "at least one row
consumed", i.e. exactly one row is reported regardless of the length of the
materialized ancestry. -/
theorem C2_eof_by_bind_mode
    (fs : FS) (st0 st1 : GitCommitCursor) (idx : Nat) (vals : List SqlValue)
    (hok : commitInit fs st0 idx vals = .ok st1) (k : Nat) :
    ((idx = 0 ∨ idx = 2) → st1.rev_param = none) ∧
    ((idx = 1 ∨ idx = 3) → st1.rev_param.isSome = true) ∧
    (st1.rev_param = none →
      (commitEof (nextK k st1) = true ↔ st1.walk.length ≤ st1.i + k)) ∧
    (st1.rev_param.isSome = true →
      (commitEof (nextK k st1) = true ↔ 0 < st1.i + k)) := by
  obtain ⟨hi, hw, hr⟩ := nextK_fields k st1
  refine ⟨?_, ?_, ?_, ?_⟩
  · rintro (rfl | rfl)
    · exact (initNone_ok hok).1
    · exact (initRepo_ok hok).1
  · rintro (rfl | rfl)
    · obtain ⟨nr2, ru2, r, h3, h4, h5, h6, h7, h8, hrv, h9, h10, h11⟩ := initRev_ok hok
      simp [hrv]
    · obtain ⟨p2, rv2, h2⟩ := initBoth_ok hok
      obtain ⟨nr2, r, h3, h4, h5, h6, h7, h8, hrv, h9, h10, h11⟩ := initBothResolved_ok h2
      simp [hrv]
  · intro hnone
    rw [commitEof_none (hr.trans hnone), hi, hw]
    simp [decide_eq_true_iff]
  · intro hsome
    obtain ⟨r, hr2⟩ := Option.isSome_iff_exists.mp hsome
    rw [commitEof_some (hr.trans hr2), hi]
    simp [decide_eq_true_iff]

/-- Witness for the amended C2 on the two-commit fixture: the revision-bound
cursor after one Next reports Eof because a row was consumed. -/
theorem C2_eof_by_bind_mode_witness :
    commitEof (nextK 1 stRevAB) = true ↔ 0 < stRevAB.i + 1 :=
  ((C2_eof_by_bind_mode envAB cursorOpen stRevAB 1 [SqlValue.text oidA] rfl 1).2.2.2)
    (by decide)

/-- C3 (code bug): a second Filter call keeps state of the first one.  On the
two-commit fixture, a revision-bound re-filter after one Next keeps the old
position index 1 (mode 1 never resets it), so the re-filtered cursor reports
Eof at once and serves zero of its two materialized rows; and a BothBound
filter on a cursor whose repository cell is already set fails outright with
the module error of the never-overwriting cell. -/
theorem C3_refilter_keeps_prior_state :
    commitInit envAB cursorOpen 1 [SqlValue.text oidA] = .ok stRevAB ∧
    stRevAB.i = 0 ∧
    commitEof stRevAB = false ∧
    commitInit envAB (commitNext stRevAB) 1 [SqlValue.text oidA] = .ok stRevABRefiltered ∧
    stRevABRefiltered.walk.length = 2 ∧
    stRevABRefiltered.i = 1 ∧
    commitEof stRevABRefiltered = true ∧
    commitInit envAB { cursorOpen with repo := some repoAB } 3
      [SqlValue.text ".", SqlValue.text oidA] = .error "unable to set repo" := by
  refine ⟨rfl, rfl, rfl, rfl, rfl, rfl, rfl, rfl⟩

/-- C9 (counterexample): a failed commit load during the traversal does not
abort the Filter call.  With the object of `B` corrupt, the revision-bound
filter on `A` succeeds and materializes only `A`, a proper non-empty subset of
the reachable commits, which here are `A` and `B`. -/
theorem C9_walk_failure_partial_rows_counterexample :
    commitInit envCorrupt cursorOpen 1 [SqlValue.text oidA] = .ok stRevCorrupt ∧
    stRevCorrupt.walk.map CommitShadow.hash = [oidA] ∧
    Reachable repoCorrupt oidA oidB ∧
    oidB ∉ stRevCorrupt.walk.map CommitShadow.hash := by
  refine ⟨rfl, rfl, ?_, by decide⟩
  exact Reachable.step (c := mkCommit oidA [oidB] "tA") (by decide) (by decide)
    (Reachable.refl oidB)

/-- C9 (amended): an unresolvable repository path and an unresolvable or
malformed revision abort the whole BothBound Filter call with an error and no
rows; but when open, parse and push succeed, the call succeeds and
materializes whatever the traversal yields, silently skipping error items, so
a failure at a later step of the history walk does not abort the call (the
counterexample exhibits a resulting proper subset of the reachable set). -/
theorem C9_repo_and_revision_failures_abort
    (fs : FS) (st : GitCommitCursor) (path rev : String)
    (hfresh : st.repo = none) :
    (openRepo fs path = none →
      commitInit fs st 3 [SqlValue.text path, SqlValue.text rev] =
        .error "RepositoryOpenError") ∧
    (∀ repo, openRepo fs path = some repo → validOid rev = false →
      commitInit fs st 3 [SqlValue.text path, SqlValue.text rev] =
        .error "RevisionResolutionError") ∧
    (∀ repo, openRepo fs path = some repo → validOid rev = true →
      lookupC repo rev = none →
      commitInit fs st 3 [SqlValue.text path, SqlValue.text rev] =
        .error "RevwalkPushError") ∧
    (∀ repo, openRepo fs path = some repo → validOid rev = true →
      (lookupC repo rev).isSome = true →
      commitInit fs st 3 [SqlValue.text path, SqlValue.text rev] =
        .ok ({ st with
                repo_param := some path
                rev_param := some rev
                repo := some repo
                walk := shadowsSkip repo (revwalk repo rev) })) := by
  have hred : commitInit fs st 3 [SqlValue.text path, SqlValue.text rev] =
      initBothResolved fs st path (some rev) := rfl
  refine ⟨?_, ?_, ?_, ?_⟩
  · intro hopen
    rw [hred]
    simp [initBothResolved, hopen]
  · intro repo hopen hv
    rw [hred]
    simp [initBothResolved, hopen, hfresh, hv]
  · intro repo hopen hv hlook
    rw [hred]
    simp [initBothResolved, hopen, hfresh, hv, pushOid, hlook]
  · intro repo hopen hv hlook
    rw [hred]
    simp [initBothResolved, hopen, hfresh, hv, pushOid, hlook]

/-- Witness for the amended C9: an unresolvable path aborts the call. -/
theorem C9_repo_and_revision_failures_abort_witness :
    commitInit (FS.mk []) cursorOpen 3 [SqlValue.text ".", SqlValue.text oidA] =
      .error "RepositoryOpenError" :=
  (C9_repo_and_revision_failures_abort (FS.mk []) cursorOpen "." oidA rfl).1 rfl

/-- C10: after a successful Filter call with a planner-produced bind-mode and
any number of Next calls, a false Eof guarantees the position index is a valid
index of the materialized walk, and Column succeeds; in particular a
revision-bound cursor's walk is never empty, because a successful push
guarantees the walk yields at least the pushed commit. -/
theorem C10_eof_false_gives_valid_index
    (fs : FS) (st0 st1 : GitCommitCursor) (idx : Nat) (vals : List SqlValue)
    (hidx : idx < 4) (hok : commitInit fs st0 idx vals = .ok st1) (k j : Nat)
    (heof : commitEof (nextK k st1) = false) :
    (nextK k st1).i < (nextK k st1).walk.length ∧
    (commitColumn (nextK k st1) j).isOk = true := by
  obtain ⟨hi, hw, hr⟩ := nextK_fields k st1
  have main : (nextK k st1).i < (nextK k st1).walk.length := by
    interval_cases idx
    · obtain ⟨hrev, hz⟩ := initNone_ok hok
      rw [commitEof_none (hr.trans hrev), hi, hw] at heof
      simp only [decide_eq_false_iff_not] at heof
      rw [hi, hw]
      omega
    · obtain ⟨newRepo, repoUsed, r, ho, hs, hhead, hv, hlook, hwalk, hrv, hpp, hcc, hii⟩ :=
        initRev_ok hok
      rw [commitEof_some (hr.trans hrv), hi] at heof
      simp only [decide_eq_false_iff_not] at heof
      have hmap := shadowsLenient_ok_hashes repoUsed _ st1.walk hwalk
      have hne : st1.walk ≠ [] := by
        intro hnil
        rw [hnil] at hmap
        exact revwalk_oks_ne_nil repoUsed r hlook (by simpa using hmap.symm)
      have hlen : 0 < st1.walk.length := List.length_pos.mpr hne
      rw [hi, hw]
      omega
    · obtain ⟨hrev, hz⟩ := initRepo_ok hok
      rw [commitEof_none (hr.trans hrev), hi, hw] at heof
      simp only [decide_eq_false_iff_not] at heof
      rw [hi, hw]
      omega
    · obtain ⟨p2, rv2, h2⟩ := initBoth_ok hok
      obtain ⟨newRepo, r, ho, hcell, hrev2, hv, hlook, hwalk, hrv, hpp, hcc, hii⟩ :=
        initBothResolved_ok h2
      rw [commitEof_some (hr.trans hrv), hi] at heof
      simp only [decide_eq_false_iff_not] at heof
      have hmap : st1.walk.map CommitShadow.hash = oks (revwalk newRepo r) := by
        rw [← hwalk]
        exact shadowsSkip_hashes newRepo _ (fun x hx => revwalk_oks_lookup newRepo r x hx)
      have hne : st1.walk ≠ [] := by
        intro hnil
        rw [hnil] at hmap
        exact revwalk_oks_ne_nil newRepo r hlook (by simpa using hmap.symm)
      have hlen : 0 < st1.walk.length := List.length_pos.mpr hne
      rw [hi, hw]
      omega
  exact ⟨main, commitColumn_isOk main j⟩

/-- Witness for C10 on the two-commit fixture, straight after the filter. -/
theorem C10_eof_false_gives_valid_index_witness :
    (nextK 0 stRevAB).i < (nextK 0 stRevAB).walk.length ∧
    (commitColumn (nextK 0 stRevAB) 0).isOk = true :=
  C10_eof_false_gives_valid_index envAB cursorOpen stRevAB 1 [SqlValue.text oidA]
    (by omega) rfl 0 0 (by decide)

end Sqlitegit
